import Mathlib

/-!
Verification development for the `promise-observer` package
(`src/index.ts` and `src/helpers.ts`).

The code is a promise-aware publish/subscribe primitive.  Two shallow
embeddings are used, matching the two aspects the code has:

* a *timed outcome* semantics for the asynchronous side: each pending
  operation is modelled by its settlement (`Outcome`): success at a time,
  failure at a time with an error value, or never settling.  `waitAllO`
  embeds `helpers.waitAll`, `raceTimeout` embeds the `timeout` race of
  `index.ts`, and `subEmit`/`emitTimed` embed the recursive fan-out of
  `subscribe`/`emit` over a static subscription tree;

* an *operational* semantics for the synchronous side of `emit`: the
  `for (var k = 0; k < subscriptions.length; k)` loop together with the
  table mutations (`remove`, `subscriptions.push`) and promise
  resolutions a listener may perform synchronously while it is invoked.
-/

namespace PromiseObserver

/-! ### Errors and timed outcomes -/

/-- Errors carried by a rejected promise.  `timeoutErr s` is a
`TimeoutError` whose `timedoutListener` field holds `s`
(`src/index.ts` lines 113-118); `listenerErr s` is any other error,
identified by a tag. -/
inductive Err where
  | listenerErr : String → Err
  | timeoutErr : String → Err
deriving DecidableEq, Repr

/-- The `'<unknown>'` sentinel that `timedoutListener` is initialised
with (`src/index.ts` line 117). -/
def unknownListener : String := "<unknown>"

/-- Whether an error is a `TimeoutError`. -/
def Err.isTimeout : Err → Bool
  | .timeoutErr _ => true
  | .listenerErr _ => false

/-- Settlement of a pending operation: success at a time, failure at a
time with an error, or never settling.  Times are abstract instants
(milliseconds). -/
inductive Outcome where
  | success : Nat → Outcome
  | failure : Nat → Err → Outcome
  | never : Outcome
deriving DecidableEq, Repr

def Outcome.isSuccess : Outcome → Bool
  | .success _ => true
  | _ => false

/-- Whether an outcome is a failure carrying a `TimeoutError`. -/
def Outcome.isTimeoutFailure : Outcome → Bool
  | .failure _ e => e.isTimeout
  | _ => false

/-- Settlement time of a success (`0` otherwise). -/
def Outcome.sTime : Outcome → Nat
  | .success t => t
  | _ => 0

/-! ### `helpers.waitAll` (src/helpers.ts lines 11-19)

`waitAll` rejects with the first rejection among its inputs (the
counter `n` never reaches `0` once some input rejects), and resolves
once the last input has resolved. -/

/-- The settlement of the first input to fail: among the failures, the
one with the least time, ties broken towards the earlier input. -/
def firstFailure : List Outcome → Option (Nat × Err)
  | [] => none
  | .failure t e :: os =>
      match firstFailure os with
      | none => some (t, e)
      | some (t0, e0) => if t0 < t then some (t0, e0) else some (t, e)
  | .success _ :: os => firstFailure os
  | .never :: os => firstFailure os

/-- Timed outcome of `helpers.waitAll`, called at time `t0` on inputs
with settlements `os`: empty input resolves immediately; a failing
input makes the result fail at the first failure; otherwise the result
resolves when the last input has resolved, or never if some input
never settles. -/
def waitAllO (t0 : Nat) (os : List Outcome) : Outcome :=
  if os.isEmpty then .success t0
  else
    match firstFailure os with
    | some (t, e) => .failure t e
    | none =>
        if os.all Outcome.isSuccess then
          .success (os.foldl (fun m o => max m o.sTime) t0)
        else .never

/-! ### The `timeout` race (src/index.ts lines 120-129) and the
attribution stamp (lines 156-160) -/

/-- Outcome of `Promise.race([timeout, p])` where the timer rejects at
time `d` with a fresh `TimeoutError` whose `timedoutListener` is the
`'<unknown>'` sentinel.  The input wins when it settles no later than
the timer. -/
def raceTimeout (o : Outcome) (d : Nat) : Outcome :=
  match o with
  | .success t => if t ≤ d then .success t else .failure d (.timeoutErr unknownListener)
  | .failure t e => if t ≤ d then .failure t e else .failure d (.timeoutErr unknownListener)
  | .never => .failure d (.timeoutErr unknownListener)

/-- The catch handler of `emit`: if the error is a `TimeoutError`
whose `timedoutListener` is still `'<unknown>'`, fill it with the
textual description of the current listener; then re-raise. -/
def stampErr (desc : String) : Err → Err
  | .timeoutErr s => if s = unknownListener then .timeoutErr desc else .timeoutErr s
  | .listenerErr s => .listenerErr s

/-- Lift `stampErr` to an outcome (the catch only fires on failure). -/
def stampOutcome (desc : String) : Outcome → Outcome
  | .failure t e => .failure t (stampErr desc e)
  | o => o

/-! ### The subscription tree and recursive fan-out

A `Sub` describes one entry of a subscription table: the stringified
listener (`String(current.listener)`), the listener's behaviour, and
the subscription table of the child emitter created for it by
`subscribe` (`src/index.ts` lines 178-193).  The child emitter is
created by `create<U>()` with no options, so a child emission applies
no timeout race of its own. -/

/-- Behaviour of a listener on the emitted value: settle successfully
after a delay with a transformed value, fail after a delay with an
error, or never settle. -/
inductive LBeh where
  | ok : Nat → (Nat → Nat) → LBeh
  | fail : Nat → Err → LBeh
  | never : LBeh

mutual
/-- A subscription entry: listener description, listener behaviour and
the child emitter's own subscription table. -/
inductive Sub where
  | mk : String → LBeh → SubList → Sub

/-- A subscription table (ordered). -/
inductive SubList where
  | nil : SubList
  | cons : Sub → SubList → SubList
end

def Sub.desc : Sub → String
  | .mk d _ _ => d

def SubList.toList : SubList → List Sub
  | .nil => []
  | .cons s l => s :: SubList.toList l

mutual
/-- Timed outcome of one subscription entry's `emit` closure
(`item => Promise.resolve(listener(item)).then(emitter.emit)`,
`src/index.ts` line 186) when invoked at time `t` with value `v`:
on listener success at `t + d` the result value is forwarded into the
child emitter's `emit` (which, having no `emitTimeout`, just walks its
table and combines the children via `waitAll`); on listener failure
the chain fails and no fan-out into the child happens. -/
def subEmit (v t : Nat) : Sub → Outcome
  | .mk _ (.ok d f) ch => waitAllO (t + d) (childOutcomes (f v) (t + d) ch)
  | .mk _ (.fail d e) _ => .failure (t + d) e
  | .mk _ .never _ => .never

/-- Outcomes of the entries of a child table, in table order. -/
def childOutcomes (v t : Nat) : SubList → List Outcome
  | .nil => []
  | .cons s l => subEmit v t s :: childOutcomes v t l
end

def Outcome.isFailure : Outcome → Bool
  | .failure _ _ => true
  | _ => false

/-- Whether a pending operation's work exceeds the window `T`: it
settles strictly later than `T`, or never settles. -/
def Outcome.exceeds (T : Nat) : Outcome → Bool
  | .success t => T < t
  | .failure t _ => T < t
  | .never => true

/-- Whether a pending operation fails within the window `T`. -/
def Outcome.failsWithin (T : Nat) : Outcome → Bool
  | .failure t _ => t ≤ T
  | _ => false

mutual
/-- Every listener in the tree settles successfully. -/
def Sub.allOk : Sub → Bool
  | .mk _ (.ok _ _) ch => SubList.allOk ch
  | .mk _ (.fail _ _) _ => false
  | .mk _ .never _ => false

def SubList.allOk : SubList → Bool
  | .nil => true
  | .cons s l => Sub.allOk s && SubList.allOk l
end

mutual
/-- The failure events of a subscription entry's transitive chain when
invoked at time `t` with value `v`: a failing listener contributes its
own failure and cuts off its subtree (no fan-out below a failure, as
`then` only fires on success); a successful listener contributes its
children's failures. -/
def subFailures (v t : Nat) : Sub → List (Nat × Err)
  | .mk _ (.ok d f) ch => listFailures (f v) (t + d) ch
  | .mk _ (.fail d e) _ => [(t + d, e)]
  | .mk _ .never _ => []

def listFailures (v t : Nat) : SubList → List (Nat × Err)
  | .nil => []
  | .cons s l => subFailures v t s ++ listFailures v t l
end

mutual
/-- No listener in the tree fails with a `TimeoutError` of its own
(e.g. one propagated out of an unrelated emitter). -/
def Sub.clean : Sub → Bool
  | .mk _ (.ok _ _) ch => SubList.clean ch
  | .mk _ (.fail _ e) ch => !e.isTimeout && SubList.clean ch
  | .mk _ .never ch => SubList.clean ch

def SubList.clean : SubList → Bool
  | .nil => true
  | .cons s l => Sub.clean s && SubList.clean l
end

mutual
/-- The listener descriptions occurring in a subscription tree. -/
def Sub.descs : Sub → List String
  | .mk d _ ch => d :: SubList.descs ch

def SubList.descs : SubList → List String
  | .nil => []
  | .cons s l => Sub.descs s ++ SubList.descs l
end

/-- The per-entry wrapping done by `emit` (`src/index.ts` lines
154-160): with no `emitTimeout` the entry's promise is used as is;
with `emitTimeout = d` it is raced against a `d`-timer and the catch
stamps the listener description into an unattributed `TimeoutError`. -/
def racedOutcome (emitTimeout : Option Nat) (desc : String) (o : Outcome) : Outcome :=
  match emitTimeout with
  | none => o
  | some d => stampOutcome desc (raceTimeout o d)

/-- The listener description the attribution catch reads when it
fires: `String(current.listener)`, where `current` is declared with
`var` (`src/index.ts` line 153) and is therefore function-scoped and
shared by every catch closure of the emission.  The loop runs
synchronously to completion before any promise callback can run, so
by the time a race rejects, `current` holds the *last* table entry
the loop examined — not the entry whose race timed out.  (On an empty
table no race is created and the value is never read; the sentinel is
used as a placeholder.) -/
def lastDesc (subs : SubList) : String :=
  match subs.toList.getLast? with
  | some s => s.desc
  | none => unknownListener

/-- Timed outcome of `emit(v)` (called at time `0`) on an emitter with
options `emitTimeout` and subscription table `subs`: every entry's
chain outcome is wrapped per `racedOutcome` and the results are
combined with `helpers.waitAll` (`src/index.ts` lines 148-166).
Because the catch closures share the function-scoped `current`, every
race's stamp uses the last examined entry's description
(`lastDesc subs`), whichever entry actually timed out. -/
def emitTimed (emitTimeout : Option Nat) (subs : SubList) (v : Nat) : Outcome :=
  waitAllO 0 (subs.toList.map fun s =>
    racedOutcome emitTimeout (lastDesc subs) (subEmit v 0 s))

/-! ### Operational model of the emit loop (src/index.ts lines 148-166)

`emit` walks the subscription table with
`for (var k = 0; k < subscriptions.length; k)`, invoking
`current.emit(t)`; the listener runs synchronously inside that call and
may, as a side effect, remove table entries (`remove`, lines 195-198,
as `next`'s listener does, lines 168-177), append new entries
(`subscribe` pushing onto `subscriptions`, lines 185-189) or resolve a
promise (`next`'s `resolve(item)`).  It may also throw synchronously,
in which case the exception escapes the loop (there is no try/catch
around `current.emit(t)`).  After the invocation the index advances
only when `current === subscriptions[k]` still holds (line 162).

Entries are identified by a numeric id standing for JavaScript object
identity (distinct subscriptions are distinct objects), so the
identity test `current === subscriptions[k]` is embedded as comparison
of ids, under a no-duplicate-ids hypothesis. -/

/-- A synchronous table operation a listener may perform while being
invoked. -/
inductive TableOp where
  | removeOp : Nat → TableOp
  | appendOp : Nat → TableOp
  | resolveOp : Nat → TableOp
deriving DecidableEq, Repr

/-- What a listener does synchronously when invoked with a value:
either it throws (the message tags the thrown error), or it performs a
list of table operations in order. -/
inductive EntryAct where
  | throws : String → EntryAct
  | acts : List TableOp → EntryAct
deriving DecidableEq, Repr

/-- Whether an operation is a removal. -/
def TableOp.isRemove : TableOp → Bool
  | .removeOp _ => true
  | _ => false

/-- A subscription-table entry: its identity and its synchronous
behaviour as a function of the emitted value. -/
structure Entry where
  id : Nat
  beh : Nat → EntryAct

/-- An entry whose listener does nothing synchronously. -/
def inertEntry (i : Nat) : Entry :=
  ⟨i, fun _ => .acts []⟩

/-- The ids of a table, in order. -/
def ids (l : List Entry) : List Nat :=
  l.map Entry.id

/-- Embeds `remove` (src/index.ts lines 195-198): scan the table and splice
out the first entry whose recorded child identity equals the target;
no-op when the target is absent. -/
def removeFirst (i : Nat) : List Entry → List Entry
  | [] => []
  | e :: es => if e.id = i then es else e :: removeFirst i es

/-- Apply one table operation to the state (table, resolution cell of
the pending `next` promise).  `removeOp` is `remove`, `appendOp` is
`subscriptions.push` of a fresh inert entry, `resolveOp` is a promise
`resolve` call (only the first resolution takes effect). -/
def applyOp (st : List Entry × Option Nat) : TableOp → List Entry × Option Nat
  | .removeOp i => (removeFirst i st.1, st.2)
  | .appendOp i => (st.1 ++ [inertEntry i], st.2)
  | .resolveOp x =>
      (st.1, match st.2 with
             | some y => some y
             | none => some x)

/-- Apply a listener's table operations in order. -/
def applyOps (ops : List TableOp) (st : List Entry × Option Nat) : List Entry × Option Nat :=
  ops.foldl applyOp st

/-- Result of one `emit` call, seen synchronously: either a listener
threw and the exception escaped `emit` itself, or the loop completed,
having invoked the recorded entries (in order) and left the table and
resolution cell in the recorded state; `emit` then returns the
`waitAll` promise. -/
inductive EmitRes where
  | thrown : String → EmitRes
  | returned : List Nat → List Entry → Option Nat → EmitRes

/-- Whether `emit` completed its loop and returned the `waitAll`
pending operation (as opposed to raising synchronously or running out
of fuel). -/
def returnsPending : Option EmitRes → Bool
  | some (.returned _ _ _) => true
  | _ => false

/-- The emit loop (src/index.ts lines 152-163), with explicit fuel
(`none` = fuel ran out): read `subscriptions[k]`; stop when out of
bounds; otherwise invoke the current entry's listener synchronously —
a throw escapes — apply its table operations, and advance `k` only if
the entry at position `k` is still the current one. -/
def runEmit (v : Nat) : Nat → List Entry → Option Nat → Nat → Option EmitRes
  | 0, _, _, _ => none
  | fuel + 1, tbl, res, k =>
    match tbl[k]? with
    | none => some (.returned [] tbl res)
    | some cur =>
      match cur.beh v with
      | .throws msg => some (.thrown msg)
      | .acts ops =>
        let st := applyOps ops (tbl, res)
        let next := if st.1[k]?.map Entry.id = some cur.id then k + 1 else k
        match runEmit v fuel st.1 st.2 next with
        | some (.returned inv tbl2 res2) => some (.returned (cur.id :: inv) tbl2 res2)
        | other => other

/-- Run a sequence of emissions, each awaited before the following one
(fuel `tbl.length + 1` per emission suffices when no listener appends). -/
def emitAll : List Nat → List Entry → Option Nat → Option (List Entry × Option Nat)
  | [], tbl, res => some (tbl, res)
  | v :: vs, tbl, res =>
    match runEmit v (tbl.length + 1) tbl res 0 with
    | some (.returned _ tbl2 res2) => emitAll vs tbl2 res2
    | _ => none

/-- The operations an entry performs on value `v` (empty when it
throws instead). -/
def opsOf (e : Entry) (v : Nat) : List TableOp :=
  match e.beh v with
  | .acts ops => ops
  | .throws _ => []

/-- Whether an operation list contains a removal of id `i`. -/
def hasRemoveId (ops : List TableOp) (i : Nat) : Bool :=
  ops.any fun op => op = .removeOp i

/-- The removals of an operation list, applied in order to a table. -/
def applyRemoves : List TableOp → List Entry → List Entry
  | [], l => l
  | .removeOp i :: ops, l => applyRemoves ops (removeFirst i l)
  | _ :: ops, l => applyRemoves ops l

/-- Reference description of a removal-only emit run: invoke the head,
apply its removals to the tail, recurse on what remains; returns the
invocation order and the final table.  Proved below to coincide with
`runEmit` whenever no listener removes an entry the loop has already
passed. -/
def stepSpec (v : Nat) : List Entry → List Nat × List Entry
  | [] => ([], [])
  | c :: rest =>
    let ops := opsOf c v
    let rest2 := applyRemoves ops rest
    ((c.id :: (stepSpec v rest2).1),
     (if hasRemoveId ops c.id then [] else [c]) ++ (stepSpec v rest2).2)
termination_by l => l.length
decreasing_by
  simp only [List.length_cons]
  have h1 : ∀ (i : Nat) (l : List Entry), (removeFirst i l).length ≤ l.length := by
    intro i l
    induction l with
    | nil => simp [removeFirst]
    | cons e es ih =>
      simp only [removeFirst]
      by_cases h : e.id = i
      · simp [h]
      · simp only [h, if_false, List.length_cons]
        exact Nat.succ_le_succ ih
  have h2 : ∀ (ops : List TableOp) (l : List Entry), (applyRemoves ops l).length ≤ l.length := by
    intro ops
    induction ops with
    | nil => intro l; simp [applyRemoves]
    | cons op ops ih =>
      intro l
      cases op with
      | removeOp i => exact le_trans (ih (removeFirst i l)) (h1 i l)
      | appendOp i => exact ih l
      | resolveOp x => exact ih l
  exact Nat.lt_succ_of_le (h2 _ _)

/-- The temporary subscription registered by `next(predicate)`
(src/index.ts lines 168-177): on each received value, if the predicate
is null or holds of the value, remove itself and resolve the returned
promise with the value; otherwise do nothing.  The returned promise's
executor exposes no rejection, so the entry can only resolve. -/
def nextEntry (i : Nat) (pred : Option (Nat → Bool)) : Entry :=
  ⟨i, fun v =>
    .acts (if (match pred with
               | none => true
               | some p => p v) then [.removeOp i, .resolveOp v] else [])⟩

/-- Embeds `predicate == null || predicate(item)` as a Boolean. -/
def predHolds (pred : Option (Nat → Bool)) (v : Nat) : Bool :=
  match pred with
  | none => true
  | some p => p v

/-! ## Lemmas about `waitAll` -/

theorem firstFailure_none_iff (os : List Outcome) :
    firstFailure os = none ↔ ∀ t e, Outcome.failure t e ∉ os := by
  induction os with
  | nil => simp [firstFailure]
  | cons o os ih =>
    cases o with
    | success t => simp [firstFailure, ih]
    | never => simp [firstFailure, ih]
    | failure t e =>
      constructor
      · intro h
        cases h0 : firstFailure os <;> simp [firstFailure, h0] at h
        rename_i p
        cases p with
        | mk t0 e0 => split at h <;> simp at h
      · intro h
        exact absurd (List.mem_cons_self _ _) (h t e)

theorem firstFailure_mem (os : List Outcome) :
    ∀ t e, firstFailure os = some (t, e) → Outcome.failure t e ∈ os := by
  induction os with
  | nil => intro t e h; simp [firstFailure] at h
  | cons o os ih =>
    intro t e h
    cases o with
    | success a => exact List.mem_cons_of_mem _ (ih t e (by simpa [firstFailure] using h))
    | never => exact List.mem_cons_of_mem _ (ih t e (by simpa [firstFailure] using h))
    | failure a b =>
      cases h0 : firstFailure os <;> simp [firstFailure, h0] at h
      · rw [← h.1, ← h.2]
        exact List.mem_cons_self _ _
      · rename_i p
        cases p with
        | mk t0 e0 =>
          split at h <;> simp only [Option.some.injEq, Prod.mk.injEq] at h
          · exact List.mem_cons_of_mem _ (ih t e (by rw [h0, h.1, h.2]))
          · rw [← h.1, ← h.2]
            exact List.mem_cons_self _ _

theorem firstFailure_min (os : List Outcome) :
    ∀ t e, firstFailure os = some (t, e) →
      ∀ t' e', Outcome.failure t' e' ∈ os → t ≤ t' := by
  induction os with
  | nil => intro t e h; simp [firstFailure] at h
  | cons o os ih =>
    intro t e h t' e' hm
    cases o with
    | success a =>
      rcases List.mem_cons.1 hm with h1 | h1
      · exact absurd h1 (by simp)
      · exact ih t e (by simpa [firstFailure] using h) t' e' h1
    | never =>
      rcases List.mem_cons.1 hm with h1 | h1
      · exact absurd h1 (by simp)
      · exact ih t e (by simpa [firstFailure] using h) t' e' h1
    | failure a b =>
      cases h0 : firstFailure os <;> simp [firstFailure, h0] at h
      · rcases List.mem_cons.1 hm with h1 | h1
        · cases h1; omega
        · exact absurd h1 ((firstFailure_none_iff os).1 h0 t' e')
      · rename_i p
        cases p with
        | mk t0 e0 =>
          split at h <;> rename_i hlt <;>
            simp only [Option.some.injEq, Prod.mk.injEq] at h
          · rcases List.mem_cons.1 hm with h1 | h1
            · cases h1
              have : t = t0 := h.1.symm
              omega
            · have := ih t0 e0 h0 t' e' h1
              omega
          · rcases List.mem_cons.1 hm with h1 | h1
            · cases h1
              omega
            · have := ih t0 e0 h0 t' e' h1
              omega

theorem waitAllO_nil (t0 : Nat) : waitAllO t0 [] = .success t0 := by
  simp [waitAllO]

theorem waitAllO_failure_iff (t0 : Nat) (os : List Outcome) (t : Nat) (e : Err) :
    waitAllO t0 os = .failure t e ↔ firstFailure os = some (t, e) := by
  unfold waitAllO
  cases os with
  | nil => simp [firstFailure]
  | cons o os =>
    cases h0 : firstFailure (o :: os)
    · simp only [List.isEmpty_cons, Bool.false_eq_true, if_false, h0]
      constructor
      · intro h; split at h <;> simp at h
      · intro h; simp at h
    · rename_i p
      cases p with
      | mk a b => simp [h0]

theorem waitAllO_success_iff (t0 : Nat) (os : List Outcome) :
    (∃ t, waitAllO t0 os = .success t) ↔ ∀ o ∈ os, o.isSuccess = true := by
  unfold waitAllO
  cases os with
  | nil => simp
  | cons o os =>
    simp only [List.isEmpty_cons, if_false, Bool.false_eq_true]
    cases h0 : firstFailure (o :: os)
    · have hno := (firstFailure_none_iff _).1 h0
      by_cases hall : (o :: os).all Outcome.isSuccess
      · simp only [hall, if_true]
        constructor
        · intro _; exact fun x hx => List.all_eq_true.1 hall x hx
        · intro _; exact ⟨_, rfl⟩
      · simp only [hall, if_false]
        constructor
        · intro ⟨t, ht⟩; simp at ht
        · intro h; exact absurd (List.all_eq_true.2 h) hall
    · rename_i p
      cases p with
      | mk a b =>
        constructor
        · intro ⟨t, ht⟩; simp at ht
        · intro h
          have := h _ (firstFailure_mem _ _ _ h0)
          simp [Outcome.isSuccess] at this

theorem waitAllO_never (t0 : Nat) (os : List Outcome)
    (h1 : ∀ t e, Outcome.failure t e ∉ os) (h2 : Outcome.never ∈ os) :
    waitAllO t0 os = .never := by
  unfold waitAllO
  cases os with
  | nil => simp at h2
  | cons o os =>
    simp only [List.isEmpty_cons, if_false, Bool.false_eq_true]
    rw [(firstFailure_none_iff _).2 h1]
    have : ¬ (o :: os).all Outcome.isSuccess = true := by
      intro hall
      have := List.all_eq_true.1 hall _ h2
      simp [Outcome.isSuccess] at this
    simp [this]

/-- C5: `waitAll` applied to an empty sequence returns an immediately
successful pending operation; applied to a non-empty sequence it
settles successfully exactly when every input has settled
successfully, and it settles with failure using the first failing
input's failure value — a failure of one of the inputs, no later than
any other input failure — without aggregating multiple failures. -/
theorem waitAll_contract :
    (∀ t0, waitAllO t0 [] = .success t0) ∧
    (∀ t0 (os : List Outcome),
      (∃ t, waitAllO t0 os = .success t) ↔ ∀ o ∈ os, o.isSuccess = true) ∧
    (∀ t0 (os : List Outcome) t e, waitAllO t0 os = .failure t e →
      Outcome.failure t e ∈ os ∧ ∀ t' e', Outcome.failure t' e' ∈ os → t ≤ t') := by
  refine ⟨waitAllO_nil, waitAllO_success_iff, ?_⟩
  intro t0 os t e h
  have h0 := (waitAllO_failure_iff t0 os t e).1 h
  exact ⟨firstFailure_mem _ _ _ h0, firstFailure_min _ _ _ h0⟩

/-- Witness for C5 at a concrete input: three pending operations, two
of which fail; `waitAll` fails with the earlier failure. -/
theorem waitAll_contract_witness :
    Outcome.failure 2 (.listenerErr "b") ∈
        [Outcome.success 3, Outcome.failure 5 (.listenerErr "a"),
         Outcome.failure 2 (.listenerErr "b")] ∧
      ∀ t' e', Outcome.failure t' e' ∈
        [Outcome.success 3, Outcome.failure 5 (.listenerErr "a"),
         Outcome.failure 2 (.listenerErr "b")] → 2 ≤ t' :=
  waitAll_contract.2.2 0 _ 2 (.listenerErr "b") (by decide)

/-! ## Timeout attribution (C1) -/

theorem subEmit_leaf_ok (d : String) (dd : Nat) (f : Nat → Nat) (v t : Nat) :
    subEmit v t (.mk d (.ok dd f) .nil) = .success (t + dd) := by
  simp [subEmit, childOutcomes, waitAllO]

theorem raced_exceeds (T : Nat) (d : String) (o : Outcome)
    (h : o.exceeds T = true) :
    racedOutcome (some T) d o = .failure T (.timeoutErr d) := by
  cases o with
  | success t =>
    simp only [Outcome.exceeds, decide_eq_true_eq] at h
    simp [racedOutcome, raceTimeout, stampOutcome, stampErr, Nat.not_le.2 h]
  | failure t e =>
    simp only [Outcome.exceeds, decide_eq_true_eq] at h
    simp [racedOutcome, raceTimeout, stampOutcome, stampErr, Nat.not_le.2 h]
  | never =>
    simp [racedOutcome, raceTimeout, stampOutcome, stampErr]

theorem raced_cases (T : Nat) (d : String) (o : Outcome)
    (h : o.failsWithin T = false) :
    (racedOutcome (some T) d o).isSuccess = true ∨
      racedOutcome (some T) d o = .failure T (.timeoutErr d) := by
  cases o with
  | success t =>
    by_cases ht : t ≤ T
    · left; simp [racedOutcome, raceTimeout, stampOutcome, ht, Outcome.isSuccess]
    · right; simp [racedOutcome, raceTimeout, stampOutcome, stampErr, ht]
  | failure t e =>
    have ht : ¬ t ≤ T := by
      intro ht
      simp [Outcome.failsWithin, ht] at h
    right
    simp [racedOutcome, raceTimeout, stampOutcome, stampErr, ht]
  | never =>
    right
    simp [racedOutcome, raceTimeout, stampOutcome, stampErr]

/-- C1 counterexample: timeout 10, the slow listener (50ms) subscribed
*first* and the fast listener (1ms) second.  The attribution catch
reads the function-scoped `var current`, which — the loop having
finished before any promise callback runs — holds the last examined
entry, the fast one; so `emit` fails with a `TimeoutError` naming
"fast", not "slow", falsifying the claim's "regardless of the order in
which the two were subscribed". -/
theorem timeout_attribution_cex :
    emitTimed (some 10)
        (.cons (.mk "slow" (.ok 50 id) .nil) (.cons (.mk "fast" (.ok 1 id) .nil) .nil)) 0
      = .failure 10 (.timeoutErr "fast") ∧
      Err.timeoutErr "fast" ≠ Err.timeoutErr "slow" :=
  ⟨by decide, by decide⟩

/-- C1 (amended): when a per-listener timeout race fails because its
own timer fired (the `TimeoutError` still holds the `'<unknown>'`
sentinel), the catch fills the error's `timedoutListener` field with
`String(current.listener)` — and since `current` is function-scoped
and the catch runs after the loop, that is the description of the
*last* entry the loop examined, not of the listener whose race
produced the timeout.  In particular, with one fast listener and one
slow listener exceeding the timeout, `emit` fails with a
`TimeoutError` identifying the *last-subscribed* listener: the slow
one when the fast one was subscribed first, the fast one when the
slow one was subscribed first. -/
theorem timeout_attribution :
    (∀ T (d : String) (o : Outcome), o.exceeds T = true →
       racedOutcome (some T) d o = .failure T (.timeoutErr d)) ∧
    (∀ T dF dS fd sd (f g : Nat → Nat) v, dF ≤ T → T < dS →
       emitTimed (some T)
           (.cons (.mk fd (.ok dF f) .nil) (.cons (.mk sd (.ok dS g) .nil) .nil)) v
         = .failure T (.timeoutErr sd) ∧
       emitTimed (some T)
           (.cons (.mk sd (.ok dS g) .nil) (.cons (.mk fd (.ok dF f) .nil) .nil)) v
         = .failure T (.timeoutErr fd)) := by
  constructor
  · exact raced_exceeds
  · intro T dF dS fd sd f g v hF hS
    have hfast : subEmit v 0 (Sub.mk fd (.ok dF f) .nil) = .success dF := by
      simpa using subEmit_leaf_ok fd dF f v 0
    have hslow : subEmit v 0 (Sub.mk sd (.ok dS g) .nil) = .success dS := by
      simpa using subEmit_leaf_ok sd dS g v 0
    constructor
    · have hl : lastDesc
          (SubList.cons (.mk fd (.ok dF f) .nil) (.cons (.mk sd (.ok dS g) .nil) .nil))
          = sd := rfl
      have hrfast :
          racedOutcome (some T) sd (subEmit v 0 (Sub.mk fd (.ok dF f) .nil))
            = .success dF := by
        rw [hfast]
        simp [racedOutcome, raceTimeout, stampOutcome, hF]
      have hrslow :
          racedOutcome (some T) sd (subEmit v 0 (Sub.mk sd (.ok dS g) .nil))
            = .failure T (.timeoutErr sd) := by
        rw [hslow]
        simp [racedOutcome, raceTimeout, stampOutcome, stampErr, Nat.not_le.2 hS]
      simp only [emitTimed, hl, SubList.toList, List.map, hrfast, hrslow]
      simp [waitAllO, firstFailure]
    · have hl : lastDesc
          (SubList.cons (.mk sd (.ok dS g) .nil) (.cons (.mk fd (.ok dF f) .nil) .nil))
          = fd := rfl
      have hrfast :
          racedOutcome (some T) fd (subEmit v 0 (Sub.mk fd (.ok dF f) .nil))
            = .success dF := by
        rw [hfast]
        simp [racedOutcome, raceTimeout, stampOutcome, hF]
      have hrslow :
          racedOutcome (some T) fd (subEmit v 0 (Sub.mk sd (.ok dS g) .nil))
            = .failure T (.timeoutErr fd) := by
        rw [hslow]
        simp [racedOutcome, raceTimeout, stampOutcome, stampErr, Nat.not_le.2 hS]
      simp only [emitTimed, hl, SubList.toList, List.map, hrfast, hrslow]
      simp [waitAllO, firstFailure]

/-- Witness for C1 as amended: timeout 10, a fast listener delaying 1
and a slow one delaying 50; fast-first names "slow", slow-first names
"fast". -/
theorem timeout_attribution_witness :
    emitTimed (some 10)
        (.cons (.mk "fast" (.ok 1 id) .nil) (.cons (.mk "slow" (.ok 50 id) .nil) .nil)) 0
      = .failure 10 (.timeoutErr "slow") ∧
    emitTimed (some 10)
        (.cons (.mk "slow" (.ok 50 id) .nil) (.cons (.mk "fast" (.ok 1 id) .nil) .nil)) 0
      = .failure 10 (.timeoutErr "fast") :=
  timeout_attribution.2 10 1 50 "fast" "slow" id id 0 (by decide) (by decide)

/-! ## The recursive fan-out tree -/

theorem Outcome.isSuccess_iff (o : Outcome) :
    o.isSuccess = true ↔ ∃ t, o = .success t := by
  cases o <;> simp [Outcome.isSuccess]

theorem childOutcomes_toList (v t : Nat) :
    ∀ l : SubList, childOutcomes v t l = l.toList.map (subEmit v t)
  | .nil => by simp [childOutcomes, SubList.toList]
  | .cons s l => by
    simp [childOutcomes, SubList.toList, childOutcomes_toList v t l]

theorem clean_toList :
    ∀ l : SubList, SubList.clean l = true → ∀ s ∈ l.toList, Sub.clean s = true
  | .nil => by simp [SubList.toList]
  | .cons s l => by
    intro h x hx
    simp only [SubList.clean, Bool.and_eq_true] at h
    rcases List.mem_cons.1 (by simpa [SubList.toList] using hx) with h1 | h1
    · rw [h1]; exact h.1
    · exact clean_toList l h.2 x h1

theorem emitTimed_none (subs : SubList) (v : Nat) :
    emitTimed none subs v = waitAllO 0 (childOutcomes v 0 subs) := by
  simp [emitTimed, racedOutcome, childOutcomes_toList]

mutual
theorem subEmit_success_iff : ∀ (s : Sub) (v t : Nat),
    (∃ t', subEmit v t s = .success t') ↔ Sub.allOk s = true
  | .mk d (.ok dd f) ch, v, t => by
    have h1 : subEmit v t (.mk d (.ok dd f) ch)
        = waitAllO (t + dd) (childOutcomes (f v) (t + dd) ch) := rfl
    rw [h1, waitAllO_success_iff]
    exact childAll_success_iff ch (f v) (t + dd)
  | .mk d (.fail dd e) ch, v, t => by simp [subEmit, Sub.allOk]
  | .mk d .never ch, v, t => by simp [subEmit, Sub.allOk]

theorem childAll_success_iff : ∀ (l : SubList) (v t : Nat),
    (∀ o ∈ childOutcomes v t l, o.isSuccess = true) ↔ SubList.allOk l = true
  | .nil, v, t => by simp [childOutcomes, SubList.allOk]
  | .cons s l, v, t => by
    simp only [childOutcomes, List.mem_cons, SubList.allOk, Bool.and_eq_true]
    constructor
    · intro h
      refine ⟨?_, ?_⟩
      · have hs := h _ (Or.inl rfl)
        rcases (Outcome.isSuccess_iff _).1 hs with ⟨t', ht'⟩
        exact (subEmit_success_iff s v t).1 ⟨t', ht'⟩
      · exact (childAll_success_iff l v t).1 fun o ho => h o (Or.inr ho)
    · intro ⟨h1, h2⟩ o ho
      rcases ho with ho | ho
      · rcases (subEmit_success_iff s v t).2 h1 with ⟨t', ht'⟩
        rw [ho, ht']
        rfl
      · exact (childAll_success_iff l v t).2 h2 o ho
end

mutual
theorem subEmit_failures : ∀ (s : Sub) (v t : Nat),
    (∀ t0 e0, subEmit v t s = .failure t0 e0 → (t0, e0) ∈ subFailures v t s) ∧
    (∀ p ∈ subFailures v t s, ∃ t0 e0, subEmit v t s = .failure t0 e0 ∧ t0 ≤ p.1)
  | .mk d (.ok dd f) ch, v, t => by
    have hsub : subEmit v t (.mk d (.ok dd f) ch)
        = waitAllO (t + dd) (childOutcomes (f v) (t + dd) ch) := rfl
    have hfs : subFailures v t (.mk d (.ok dd f) ch)
        = listFailures (f v) (t + dd) ch := rfl
    constructor
    · intro t0 e0 h
      rw [hsub] at h
      rw [hfs]
      exact (child_failures ch (f v) (t + dd)).1 t0 e0
        (firstFailure_mem _ t0 e0 ((waitAllO_failure_iff _ _ _ _).1 h))
    · intro p hp
      rw [hfs] at hp
      rcases (child_failures ch (f v) (t + dd)).2 p hp with ⟨t1, e1, hm, hle⟩
      cases hf : firstFailure (childOutcomes (f v) (t + dd) ch) with
      | none => exact absurd hm ((firstFailure_none_iff _).1 hf t1 e1)
      | some q =>
        cases q with
        | mk t2 e2 =>
          refine ⟨t2, e2, ?_, ?_⟩
          · rw [hsub]
            exact (waitAllO_failure_iff _ _ _ _).2 hf
          · exact le_trans (firstFailure_min _ t2 e2 hf t1 e1 hm) hle
  | .mk d (.fail dd e) ch, v, t => by
    constructor
    · intro t0 e0 h
      simp only [subEmit, Outcome.failure.injEq] at h
      simp [subFailures, h.1, h.2]
    · intro p hp
      simp only [subFailures, List.mem_singleton] at hp
      exact ⟨t + dd, e, rfl, by rw [hp]⟩
  | .mk d .never ch, v, t => by
    constructor
    · intro t0 e0 h
      simp [subEmit] at h
    · intro p hp
      simp [subFailures] at hp

theorem child_failures : ∀ (l : SubList) (v t : Nat),
    (∀ t0 e0, Outcome.failure t0 e0 ∈ childOutcomes v t l → (t0, e0) ∈ listFailures v t l) ∧
    (∀ p ∈ listFailures v t l, ∃ t0 e0,
        Outcome.failure t0 e0 ∈ childOutcomes v t l ∧ t0 ≤ p.1)
  | .nil, v, t => by
    constructor
    · intro t0 e0 h; simp [childOutcomes] at h
    · intro p hp; simp [listFailures] at hp
  | .cons s l, v, t => by
    constructor
    · intro t0 e0 h
      simp only [childOutcomes, List.mem_cons] at h
      simp only [listFailures, List.mem_append]
      rcases h with h | h
      · exact Or.inl ((subEmit_failures s v t).1 t0 e0 h.symm)
      · exact Or.inr ((child_failures l v t).1 t0 e0 h)
    · intro p hp
      simp only [listFailures, List.mem_append] at hp
      simp only [childOutcomes, List.mem_cons]
      rcases hp with hp | hp
      · rcases (subEmit_failures s v t).2 p hp with ⟨t0, e0, hEq, hle⟩
        exact ⟨t0, e0, Or.inl hEq.symm, hle⟩
      · rcases (child_failures l v t).2 p hp with ⟨t0, e0, hm, hle⟩
        exact ⟨t0, e0, Or.inr hm, hle⟩
end

mutual
theorem clean_subFailures : ∀ (s : Sub), Sub.clean s = true →
    ∀ v t p, p ∈ subFailures v t s → p.2.isTimeout = false
  | .mk d (.ok dd f) ch => by
    intro hc v t p hp
    simp only [Sub.clean] at hc
    exact clean_listFailures ch hc (f v) (t + dd) p hp
  | .mk d (.fail dd e) ch => by
    intro hc v t p hp
    simp only [Sub.clean, Bool.and_eq_true] at hc
    simp only [subFailures, List.mem_singleton] at hp
    rw [hp]
    simpa using hc.1
  | .mk d .never ch => by
    intro hc v t p hp
    simp [subFailures] at hp

theorem clean_listFailures : ∀ (l : SubList), SubList.clean l = true →
    ∀ v t p, p ∈ listFailures v t l → p.2.isTimeout = false
  | .nil => by intro hc v t p hp; simp [listFailures] at hp
  | .cons s l => by
    intro hc v t p hp
    simp only [SubList.clean, Bool.and_eq_true] at hc
    simp only [listFailures, List.mem_append] at hp
    rcases hp with hp | hp
    · exact clean_subFailures s hc.1 v t p hp
    · exact clean_listFailures l hc.2 v t p hp
end

theorem clean_outcome_err (s : Sub) (v t t0 : Nat) (e0 : Err)
    (hc : Sub.clean s = true) (h : subEmit v t s = .failure t0 e0) :
    e0.isTimeout = false :=
  clean_subFailures s hc v t (t0, e0) ((subEmit_failures s v t).1 t0 e0 h)

theorem raced_success_inv (opts : Option Nat) (d : String) (o : Outcome)
    (h : (racedOutcome opts d o).isSuccess = true) : o.isSuccess = true := by
  cases opts with
  | none => exact h
  | some T =>
    cases o with
    | success t => rfl
    | failure t e =>
      by_cases ht : t ≤ T
      · simp [racedOutcome, raceTimeout, stampOutcome, ht, Outcome.isSuccess] at h
      · simp [racedOutcome, raceTimeout, stampOutcome, ht, Outcome.isSuccess] at h
    | never => simp [racedOutcome, raceTimeout, stampOutcome, Outcome.isSuccess] at h

theorem allOk_of_toList :
    ∀ (l : SubList), (∀ s ∈ l.toList, Sub.allOk s = true) → SubList.allOk l = true
  | .nil => by intro _; rfl
  | .cons s l => by
    intro h
    simp only [SubList.allOk, Bool.and_eq_true]
    refine ⟨h s (by simp [SubList.toList]), ?_⟩
    exact allOk_of_toList l fun x hx => h x (by simp [SubList.toList, hx])

/-- C4: whatever the `emitTimeout` option, `emit(v)` settles
successfully only when every listener in the transitive tree settles
successfully, and with no timeout configured *exactly* when they all
do; when it fails (no timeout), it fails with a failure of the tree
that no other tree failure precedes (siblings' outcomes are otherwise
ignored); and a listener's failure is the whole chain's outcome
regardless of its child emitter's table — no fan-out happens below
it. -/
theorem emit_transitive_settlement :
    (∀ (emitTimeout : Option Nat) (subs : SubList) v t,
       emitTimed emitTimeout subs v = .success t → SubList.allOk subs = true) ∧
    (∀ subs v, (∃ t, emitTimed none subs v = .success t) ↔ SubList.allOk subs = true) ∧
    (∀ subs v t e, emitTimed none subs v = .failure t e →
       (t, e) ∈ listFailures v 0 subs ∧ ∀ p ∈ listFailures v 0 subs, t ≤ p.1) ∧
    (∀ d dd e (ch : SubList) v t,
       subEmit v t (.mk d (.fail dd e) ch) = .failure (t + dd) e ∧
       subFailures v t (.mk d (.fail dd e) ch) = [(t + dd, e)]) := by
  refine ⟨?_, ?_, ?_, ?_⟩
  · intro opts subs v t h
    have hex : ∃ t2, waitAllO 0
        (subs.toList.map fun s => racedOutcome opts (lastDesc subs) (subEmit v 0 s))
        = .success t2 := ⟨t, h⟩
    have hall := (waitAllO_success_iff 0 _).1 hex
    apply allOk_of_toList
    intro s hs
    have hms := hall _ (List.mem_map_of_mem _ hs)
    have hsucc := raced_success_inv opts (lastDesc subs) _ hms
    exact (subEmit_success_iff s v 0).1 ((Outcome.isSuccess_iff _).1 hsucc)
  · intro subs v
    rw [emitTimed_none subs v, waitAllO_success_iff]
    exact childAll_success_iff subs v 0
  · intro subs v t e h
    rw [emitTimed_none subs v] at h
    have hf := (waitAllO_failure_iff _ _ _ _).1 h
    constructor
    · exact (child_failures subs v 0).1 t e (firstFailure_mem _ t e hf)
    · intro p hp
      rcases (child_failures subs v 0).2 p hp with ⟨t1, e1, hm, hle⟩
      exact le_trans (firstFailure_min _ t e hf t1 e1 hm) hle
  · intro d dd e ch v t
    exact ⟨rfl, rfl⟩

/-- Witness for C4 at a concrete input: one listener succeeding after
1ms and forwarding into a child whose listener fails at 3ms; the
failure `emit` reports is a minimal tree failure. -/
theorem emit_transitive_settlement_witness :
    (3, Err.listenerErr "x") ∈
        listFailures 0 0
          (.cons (.mk "a" (.ok 1 id)
            (.cons (.mk "b" (.fail 2 (.listenerErr "x")) .nil) .nil)) .nil) ∧
      ∀ p ∈ listFailures 0 0
          (.cons (.mk "a" (.ok 1 id)
            (.cons (.mk "b" (.fail 2 (.listenerErr "x")) .nil) .nil)) .nil),
        3 ≤ p.1 :=
  emit_transitive_settlement.2.2.1 _ 0 3 (.listenerErr "x") (by decide)

/-! ## Timeout enforcement (C6) and child emitters (C9) -/

/-- C6 counterexample: with `emitTimeout = 10`, a listener whose own
failure settles at 1ms next to a listener whose work takes 50ms (which
therefore exceeds the timeout); `emit` fails with the listener error,
not with a `TimeoutError` — the claim "fails with a TimeoutError
whenever any listener's work exceeds emitTimeout" is false as
stated. -/
theorem timeout_masked_cex :
    (subEmit 0 0 (Sub.mk "slow" (.ok 50 id) .nil)).exceeds 10 = true ∧
    emitTimed (some 10)
        (.cons (.mk "bad" (.fail 1 (.listenerErr "boom")) .nil)
          (.cons (.mk "slow" (.ok 50 id) .nil) .nil)) 0
      = .failure 1 (.listenerErr "boom") ∧
    (emitTimed (some 10)
        (.cons (.mk "bad" (.fail 1 (.listenerErr "boom")) .nil)
          (.cons (.mk "slow" (.ok 50 id) .nil) .nil)) 0).isTimeoutFailure
      = false := by
  refine ⟨by decide, by decide, by decide⟩

/-- C6 (amended): with `emitTimeout = T`, if no listener chain fails
of its own within the window, then as soon as some chain's work
exceeds `T` milliseconds `emit` fails with a `TimeoutError` at `T`
(with the claim as frozen, an unrelated listener failure settling
within the window can win the `waitAll` race instead, see the
counterexample); with `emitTimeout` absent no timeout is enforced:
a chain that never settles makes `emit` wait indefinitely. -/
theorem timeout_enforcement :
    (∀ T (subs : SubList) v,
       (∀ s ∈ subs.toList, (subEmit v 0 s).failsWithin T = false) →
       (∃ s ∈ subs.toList, (subEmit v 0 s).exceeds T = true) →
       ∃ d, emitTimed (some T) subs v = .failure T (.timeoutErr d)) ∧
    (∀ (subs : SubList) v,
       (∀ s ∈ subs.toList, (subEmit v 0 s).isFailure = false) →
       (∃ s ∈ subs.toList, subEmit v 0 s = .never) →
       emitTimed none subs v = .never) := by
  constructor
  · intro T subs v hin hex
    rcases hex with ⟨s0, hs0, hex0⟩
    have hmem : Outcome.failure T (.timeoutErr (lastDesc subs)) ∈
        subs.toList.map fun s => racedOutcome (some T) (lastDesc subs) (subEmit v 0 s) := by
      rw [← raced_exceeds T (lastDesc subs) _ hex0]
      exact List.mem_map_of_mem _ hs0
    cases hff : firstFailure
        (subs.toList.map fun s => racedOutcome (some T) (lastDesc subs) (subEmit v 0 s)) with
    | none =>
      exact absurd hmem ((firstFailure_none_iff _).1 hff T (.timeoutErr (lastDesc subs)))
    | some q =>
      cases q with
      | mk t1 e1 =>
        have hm1 := firstFailure_mem _ t1 e1 hff
        rcases List.mem_map.1 hm1 with ⟨s1, hs1, hr1⟩
        rcases raced_cases T (lastDesc subs) (subEmit v 0 s1) (hin s1 hs1) with hcase | hcase
        · rw [hr1] at hcase
          simp [Outcome.isSuccess] at hcase
        · rw [hcase] at hr1
          refine ⟨lastDesc subs, ?_⟩
          have : emitTimed (some T) subs v = .failure t1 e1 :=
            (waitAllO_failure_iff _ _ _ _).2 hff
          rw [this, ← hr1]
  · intro subs v hnf hnev
    rw [emitTimed_none subs v]
    apply waitAllO_never
    · intro t e hmem
      rw [childOutcomes_toList] at hmem
      rcases List.mem_map.1 hmem with ⟨s, hs, hr⟩
      have := hnf s hs
      rw [hr] at this
      simp [Outcome.isFailure] at this
    · rcases hnev with ⟨s, hs, hr⟩
      rw [childOutcomes_toList, ← hr]
      exact List.mem_map_of_mem _ hs

/-- Witness for C6 as amended: a single slow listener (50ms) with
`emitTimeout = 10` makes `emit` fail with a `TimeoutError` at 10. -/
theorem timeout_enforcement_witness :
    ∃ d, emitTimed (some 10) (.cons (.mk "slow" (.ok 50 id) .nil) .nil) 0
      = .failure 10 (.timeoutErr d) :=
  timeout_enforcement.1 10 _ 0 (by decide) (by decide)

theorem mem_of_getLast (l : List Sub) (a : Sub) (h : l.getLast? = some a) :
    a ∈ l := by
  have hx : a ∈ l.getLast? := Option.mem_def.2 h
  rcases List.mem_getLast?_eq_getLast hx with ⟨hne, heq⟩
  rw [heq]
  exact List.getLast_mem hne

theorem lastDesc_mem (subs : SubList) (hne : subs.toList ≠ []) :
    lastDesc subs ∈ subs.toList.map Sub.desc := by
  cases hl : subs.toList.getLast? with
  | none => exact absurd (List.getLast?_eq_none_iff.1 hl) hne
  | some a =>
    have ha : a ∈ subs.toList := mem_of_getLast _ _ hl
    have he : lastDesc subs = a.desc := by
      simp [lastDesc, hl]
    rw [he]
    exact List.mem_map_of_mem _ ha

/-- C9: child emitters are created by `create<U>()` with no options,
so the parent's `emitTimeout` is not inherited: (i) an emission with
no `emitTimeout` never fails with a `TimeoutError`, however deep and
slow the forwarding tree, provided no listener fails with a foreign
`TimeoutError` of its own; (ii) with `emitTimeout = T` configured on
the emitting emitter, any `TimeoutError` failure of `emit` happens at
time `T` and names one of the *direct* listeners — the only timeout
race is the root's; (iii) concretely, a quick direct listener
forwarding into a slow child times out attributed to the direct
listener's description, not the child's. -/
theorem child_no_timeout :
    (∀ (subs : SubList) v, SubList.clean subs = true →
       (emitTimed none subs v).isTimeoutFailure = false) ∧
    (∀ T (subs : SubList) v t d, SubList.clean subs = true →
       emitTimed (some T) subs v = .failure t (.timeoutErr d) →
       t = T ∧ d ∈ subs.toList.map Sub.desc) ∧
    (∀ T dR dC descR descC (f g : Nat → Nat) v, T < dR + dC →
       emitTimed (some T)
           (.cons (.mk descR (.ok dR f)
             (.cons (.mk descC (.ok dC g) .nil) .nil)) .nil) v
         = .failure T (.timeoutErr descR)) := by
  refine ⟨?_, ?_, ?_⟩
  · intro subs v hc
    cases ho : emitTimed none subs v with
    | success t => simp [Outcome.isTimeoutFailure]
    | never => simp [Outcome.isTimeoutFailure]
    | failure t e =>
      rw [emitTimed_none subs v] at ho
      have hf := firstFailure_mem _ t e ((waitAllO_failure_iff _ _ _ _).1 ho)
      rw [childOutcomes_toList] at hf
      rcases List.mem_map.1 hf with ⟨s, hs, hr⟩
      have := clean_outcome_err s v 0 t e (clean_toList subs hc s hs) hr
      simp [Outcome.isTimeoutFailure, this]
  · intro T subs v t d hc hemit
    have hf := firstFailure_mem _ t (.timeoutErr d)
      ((waitAllO_failure_iff _ _ _ _).1 hemit)
    rcases List.mem_map.1 hf with ⟨s, hs, hr⟩
    have hcs := clean_toList subs hc s hs
    cases ho : subEmit v 0 s with
    | success t1 =>
      rw [ho] at hr
      by_cases ht1 : t1 ≤ T
      · simp [racedOutcome, raceTimeout, stampOutcome, ht1] at hr
      · simp [racedOutcome, raceTimeout, stampOutcome, stampErr, ht1,
          unknownListener] at hr
        exact ⟨hr.1.symm, hr.2 ▸ lastDesc_mem subs (List.ne_nil_of_mem hs)⟩
    | failure t1 e1 =>
      have he1 : e1.isTimeout = false := clean_outcome_err s v 0 t1 e1 hcs ho
      rw [ho] at hr
      by_cases ht1 : t1 ≤ T
      · cases e1 with
        | listenerErr m =>
          simp [racedOutcome, raceTimeout, stampOutcome, stampErr, ht1] at hr
        | timeoutErr m => simp [Err.isTimeout] at he1
      · simp [racedOutcome, raceTimeout, stampOutcome, stampErr, ht1,
          unknownListener] at hr
        exact ⟨hr.1.symm, hr.2 ▸ lastDesc_mem subs (List.ne_nil_of_mem hs)⟩
    | never =>
      rw [ho] at hr
      simp [racedOutcome, raceTimeout, stampOutcome, stampErr,
        unknownListener] at hr
      exact ⟨hr.1.symm, hr.2 ▸ lastDesc_mem subs (List.ne_nil_of_mem hs)⟩
  · intro T dR dC descR descC f g v hT
    have hchild : subEmit (f v) dR (Sub.mk descC (.ok dC g) .nil)
        = .success (dR + dC) := subEmit_leaf_ok descC dC g (f v) dR
    have hroot : subEmit v 0 (Sub.mk descR (.ok dR f)
        (.cons (.mk descC (.ok dC g) .nil) .nil)) = .success (dR + dC) := by
      have h1 : subEmit v 0 (Sub.mk descR (.ok dR f)
          (.cons (.mk descC (.ok dC g) .nil) .nil))
          = waitAllO (0 + dR)
              (childOutcomes (f v) (0 + dR) (.cons (.mk descC (.ok dC g) .nil) .nil)) := rfl
      rw [h1]
      simp only [Nat.zero_add, childOutcomes, hchild]
      simp [waitAllO, firstFailure, Outcome.isSuccess, Outcome.sTime,
        Nat.max_eq_right (Nat.le_add_right dR dC)]
    have hl : lastDesc (SubList.cons (.mk descR (.ok dR f)
        (.cons (.mk descC (.ok dC g) .nil) .nil)) .nil) = descR := rfl
    simp only [emitTimed, hl, SubList.toList, List.map, racedOutcome, hroot,
      raceTimeout, Nat.not_le.2 hT, if_false, stampOutcome, stampErr, if_pos rfl]
    simp [waitAllO, firstFailure]

/-- Witness for C9: root timeout 10, direct listener delaying 1 and
forwarding into a child listener delaying 50; the timeout names the
direct listener. -/
theorem child_no_timeout_witness :
    emitTimed (some 10)
        (.cons (.mk "root" (.ok 1 id)
          (.cons (.mk "child" (.ok 50 id) .nil) .nil)) .nil) 0
      = .failure 10 (.timeoutErr "root") :=
  child_no_timeout.2.2 10 1 50 "root" "child" id id 0 (by decide)

/-! ## The emit loop: table surgery lemmas -/

theorem removeFirst_not_mem (i : Nat) :
    ∀ l : List Entry, i ∉ ids l → removeFirst i l = l := by
  intro l
  induction l with
  | nil => intro _; rfl
  | cons e es ih =>
    intro h
    simp only [ids, List.map_cons, List.mem_cons, not_or] at h
    simp only [removeFirst, if_neg (Ne.symm h.1)]
    rw [ih (by simpa [ids] using h.2)]

theorem removeFirst_sublist (i : Nat) :
    ∀ l : List Entry, List.Sublist (removeFirst i l) l := by
  intro l
  induction l with
  | nil => simp [removeFirst]
  | cons e es ih =>
    simp only [removeFirst]
    by_cases h : e.id = i
    · rw [if_pos h]
      exact List.sublist_cons_self e es
    · rw [if_neg h]
      exact ih.cons₂ e

theorem removeFirst_append (i : Nat) :
    ∀ (xs ys : List Entry), i ∉ ids xs →
      removeFirst i (xs ++ ys) = xs ++ removeFirst i ys := by
  intro xs
  induction xs with
  | nil => intro ys _; rfl
  | cons e es ih =>
    intro ys h
    simp only [ids, List.map_cons, List.mem_cons, not_or] at h
    rw [List.cons_append]
    simp only [removeFirst, if_neg (Ne.symm h.1)]
    rw [ih ys (by simpa [ids] using h.2), List.cons_append]

theorem mem_removeFirst (i : Nat) (e : Entry) :
    ∀ l : List Entry, e ∈ l → e.id ≠ i → e ∈ removeFirst i l := by
  intro l
  induction l with
  | nil => intro h; simp at h
  | cons a as ih =>
    intro hm hne
    simp only [removeFirst]
    by_cases ha : a.id = i
    · rw [if_pos ha]
      rcases List.mem_cons.1 hm with h1 | h1
      · exact absurd (h1 ▸ ha) hne
      · exact h1
    · rw [if_neg ha]
      rcases List.mem_cons.1 hm with h1 | h1
      · exact h1 ▸ List.mem_cons_self _ _
      · exact List.mem_cons_of_mem _ (ih h1 hne)

theorem applyRemoves_sublist :
    ∀ (ops : List TableOp) (l : List Entry), List.Sublist (applyRemoves ops l) l := by
  intro ops
  induction ops with
  | nil => intro l; simp [applyRemoves]
  | cons op ops ih =>
    intro l
    cases op with
    | removeOp i => exact (ih (removeFirst i l)).trans (removeFirst_sublist i l)
    | appendOp i => exact ih l
    | resolveOp x => exact ih l

theorem applyRemoves_length_le (ops : List TableOp) (l : List Entry) :
    (applyRemoves ops l).length ≤ l.length :=
  (applyRemoves_sublist ops l).length_le

theorem applyRemoves_append (ops : List TableOp) :
    ∀ (xs ys : List Entry), (∀ j, TableOp.removeOp j ∈ ops → j ∉ ids xs) →
      applyRemoves ops (xs ++ ys) = xs ++ applyRemoves ops ys := by
  induction ops with
  | nil => intro xs ys _; rfl
  | cons op ops ih =>
    intro xs ys h
    cases op with
    | removeOp i =>
      simp only [applyRemoves]
      rw [removeFirst_append i xs ys (h i (List.mem_cons_self _ _))]
      exact ih xs _ fun j hj => h j (List.mem_cons_of_mem _ hj)
    | appendOp i =>
      simp only [applyRemoves]
      exact ih xs ys fun j hj => h j (List.mem_cons_of_mem _ hj)
    | resolveOp x =>
      simp only [applyRemoves]
      exact ih xs ys fun j hj => h j (List.mem_cons_of_mem _ hj)

theorem hasRemoveId_false :
    ∀ (ops : List TableOp) (i : Nat), hasRemoveId ops i = false →
      ∀ j, TableOp.removeOp j ∈ ops → j ≠ i := by
  intro ops
  induction ops with
  | nil => intro i _ j hj; simp at hj
  | cons op ops ih =>
    intro i h j hj
    simp only [hasRemoveId, List.any_cons, Bool.or_eq_false_iff] at h
    rcases List.mem_cons.1 hj with h1 | h1
    · intro he
      subst he
      rw [← h1] at h
      simp at h
    · exact ih i (by simpa [hasRemoveId] using h.2) j h1

theorem applyRemoves_cons_keep (ops : List TableOp) (c : Entry) (l : List Entry)
    (h : hasRemoveId ops c.id = false) :
    applyRemoves ops (c :: l) = c :: applyRemoves ops l := by
  have := applyRemoves_append ops [c] l
    (fun j hj => by
      have hne := hasRemoveId_false ops c.id h j hj
      simp [ids, hne])
  simpa using this

theorem applyRemoves_cons_drop :
    ∀ (ops : List TableOp) (c : Entry) (l : List Entry),
      c.id ∉ ids l → hasRemoveId ops c.id = true →
      applyRemoves ops (c :: l) = applyRemoves ops l := by
  intro ops
  induction ops with
  | nil => intro c l _ h; simp [hasRemoveId] at h
  | cons op ops ih =>
    intro c l hnm h
    cases op with
    | removeOp i =>
      by_cases hic : i = c.id
      · subst hic
        simp only [applyRemoves]
        rw [show removeFirst c.id (c :: l) = l from by simp [removeFirst]]
        rw [removeFirst_not_mem c.id l hnm]
      · have h1 : hasRemoveId ops c.id = true := by
          simp only [hasRemoveId, List.any_cons, Bool.or_eq_true] at h
          rcases h with h2 | h2
          · exact absurd (by simpa using h2) hic
          · simpa [hasRemoveId] using h2
        simp only [applyRemoves]
        rw [show removeFirst i (c :: l) = c :: removeFirst i l from by
          simp only [removeFirst, if_neg (fun q : c.id = i => hic q.symm)]]
        exact ih c (removeFirst i l)
          (fun hm => hnm (((removeFirst_sublist i l).map Entry.id).subset hm)) h1
    | appendOp i =>
      have h1 : hasRemoveId ops c.id = true := by simpa [hasRemoveId] using h
      simp only [applyRemoves]
      exact ih c l hnm h1
    | resolveOp x =>
      have h1 : hasRemoveId ops c.id = true := by simpa [hasRemoveId] using h
      simp only [applyRemoves]
      exact ih c l hnm h1

theorem applyOps_removes :
    ∀ (ops : List TableOp) (tbl : List Entry) (res : Option Nat),
      (∀ op ∈ ops, ∃ j, op = .removeOp j) →
      applyOps ops (tbl, res) = (applyRemoves ops tbl, res) := by
  intro ops
  induction ops with
  | nil => intro tbl res _; rfl
  | cons op ops ih =>
    intro tbl res h
    rcases h op (List.mem_cons_self _ _) with ⟨j, hj⟩
    subst hj
    simp only [applyOps, List.foldl_cons, applyOp, applyRemoves]
    exact ih (removeFirst j tbl) res fun op2 hop2 => h op2 (List.mem_cons_of_mem _ hop2)

theorem mem_applyRemoves (e : Entry) :
    ∀ (ops : List TableOp) (l : List Entry), e ∈ l →
      TableOp.removeOp e.id ∉ ops → e ∈ applyRemoves ops l := by
  intro ops
  induction ops with
  | nil => intro l h _; exact h
  | cons op ops ih =>
    intro l hm hni
    cases op with
    | removeOp i =>
      have hne : e.id ≠ i := by
        intro hq
        exact hni (by rw [hq]; exact List.mem_cons_self _ _)
      exact ih (removeFirst i l) (mem_removeFirst i e l hm hne)
        fun q => hni (List.mem_cons_of_mem _ q)
    | appendOp i => exact ih l hm fun q => hni (List.mem_cons_of_mem _ q)
    | resolveOp x => exact ih l hm fun q => hni (List.mem_cons_of_mem _ q)

/-! ## The emit loop: one-step unfolding and fuel monotonicity -/

theorem runEmit_succ (v fuel : Nat) (tbl : List Entry) (res : Option Nat) (k : Nat) :
    runEmit v (fuel + 1) tbl res k =
      match tbl[k]? with
      | none => some (.returned [] tbl res)
      | some cur =>
        match cur.beh v with
        | .throws msg => some (.thrown msg)
        | .acts ops =>
          let st := applyOps ops (tbl, res)
          let next := if st.1[k]?.map Entry.id = some cur.id then k + 1 else k
          match runEmit v fuel st.1 st.2 next with
          | some (.returned inv tbl2 res2) => some (.returned (cur.id :: inv) tbl2 res2)
          | other => other := rfl

theorem runEmit_mono (v : Nat) :
    ∀ (fuel : Nat) (tbl : List Entry) (res : Option Nat) (k : Nat) (r : EmitRes),
      runEmit v fuel tbl res k = some r →
      ∀ fuel2, fuel ≤ fuel2 → runEmit v fuel2 tbl res k = some r := by
  intro fuel
  induction fuel with
  | zero => intro tbl res k r h; simp [runEmit] at h
  | succ f ih =>
    intro tbl res k r h fuel2 hle
    have hd : ∃ d, fuel2 = (f + d) + 1 := ⟨fuel2 - f - 1, by omega⟩
    rcases hd with ⟨d, hd⟩
    subst hd
    rw [runEmit_succ] at h ⊢
    cases hget : tbl[k]? with
    | none =>
      simp only [hget] at h ⊢
      exact h
    | some cur =>
      simp only [hget] at h ⊢
      cases hbeh : cur.beh v with
      | throws msg =>
        simp only [hbeh] at h ⊢
        exact h
      | acts ops =>
        simp only [hbeh] at h ⊢
        cases hrec : runEmit v f (applyOps ops (tbl, res)).1 (applyOps ops (tbl, res)).2
            (if ((applyOps ops (tbl, res)).1[k]?).map Entry.id = some cur.id then k + 1 else k) with
        | none =>
          rw [hrec] at h
          simp at h
        | some r2 =>
          rw [ih _ _ _ _ hrec (f + d) (Nat.le_add_right f d)]
          rw [hrec] at h
          exact h


theorem mem_of_get (l : List Entry) (n : Nat) (e : Entry) (h : l[n]? = some e) :
    e ∈ l := by
  rcases List.getElem?_eq_some.1 h with ⟨hn, rfl⟩
  exact List.getElem_mem hn

theorem getElem_append_len (done l : List Entry) :
    (done ++ l)[done.length]? = l[0]? := by
  rw [List.getElem?_append_right (le_refl _)]
  simp

/-- The emit loop agrees with the reference description `stepSpec` on
any removal-only run in which no listener removes an entry the loop
has already passed: table ids are distinct, every listener of the
segment still to process performs only removals whose targets are not
among the already-processed entries, and no listener removes an entry
registered before itself. -/
theorem runEmit_stepSpec (v : Nat) :
    ∀ (pending done : List Entry) (res : Option Nat),
      (ids (done ++ pending)).Nodup →
      (∀ c ∈ pending, c.beh v = .acts (opsOf c v)) →
      (∀ c ∈ pending, ∀ op ∈ opsOf c v, ∃ j, op = .removeOp j ∧ j ∉ ids done) →
      List.Pairwise (fun a b => ∀ op ∈ opsOf b v, op ≠ .removeOp a.id) pending →
      runEmit v (pending.length + 1) (done ++ pending) res done.length
        = some (.returned (stepSpec v pending).1 (done ++ (stepSpec v pending).2) res)
  | [], done, res => by
    intro hnd hacts hrem hpw
    rw [runEmit_succ]
    have hg : (done ++ ([] : List Entry))[done.length]? = none := by
      rw [List.append_nil]
      exact List.getElem?_eq_none (le_refl _)
    simp only [hg]
    simp [stepSpec]
  | c :: rest, done, res => by
    intro hnd hacts hrem hpw
    have hcmem : c ∈ c :: rest := List.mem_cons_self _ _
    have hops : ∀ op ∈ opsOf c v, ∃ j, op = .removeOp j := by
      intro op hop
      rcases hrem c hcmem op hop with ⟨j, hj, _⟩
      exact ⟨j, hj⟩
    have hget : (done ++ c :: rest)[done.length]? = some c := by
      rw [getElem_append_len]
      simp
    have hnotdone : ∀ j, TableOp.removeOp j ∈ opsOf c v → j ∉ ids done := by
      intro j hj
      rcases hrem c hcmem _ hj with ⟨j2, hj2, hnd2⟩
      injection hj2 with h
      subst h
      exact hnd2
    have happly : applyOps (opsOf c v) (done ++ c :: rest, res)
        = (done ++ applyRemoves (opsOf c v) (c :: rest), res) := by
      rw [applyOps_removes _ _ _ hops, applyRemoves_append _ _ _ hnotdone]
    rw [runEmit_succ]
    simp only [hget, hacts c hcmem, happly]
    have hsub : List.Sublist (applyRemoves (opsOf c v) rest) rest :=
      applyRemoves_sublist _ _
    have hmemrest : ∀ x ∈ applyRemoves (opsOf c v) rest, x ∈ rest :=
      fun x hx => hsub.subset hx
    have hacts2 : ∀ x ∈ applyRemoves (opsOf c v) rest, x.beh v = .acts (opsOf x v) :=
      fun x hx => hacts x (List.mem_cons_of_mem _ (hmemrest x hx))
    have hpwc := List.pairwise_cons.1 hpw
    have hpw2 : List.Pairwise (fun a b => ∀ op ∈ opsOf b v, op ≠ .removeOp a.id)
        (applyRemoves (opsOf c v) rest) := hpwc.2.sublist hsub
    have hfuel : (applyRemoves (opsOf c v) rest).length + 1 ≤ (c :: rest).length := by
      simp only [List.length_cons]
      exact Nat.succ_le_succ (applyRemoves_length_le _ _)
    cases hkeep : hasRemoveId (opsOf c v) c.id with
    | false =>
      have hACR : applyRemoves (opsOf c v) (c :: rest)
          = c :: applyRemoves (opsOf c v) rest :=
        applyRemoves_cons_keep _ _ _ hkeep
      rw [hACR]
      have hguard : ((done ++ c :: applyRemoves (opsOf c v) rest)[done.length]?).map
          Entry.id = some c.id := by
        rw [getElem_append_len]
        simp
      rw [if_pos hguard]
      have htbl : (done ++ [c]) ++ applyRemoves (opsOf c v) rest
          = done ++ c :: applyRemoves (opsOf c v) rest := by simp
      have hnd2 : (ids ((done ++ [c]) ++ applyRemoves (opsOf c v) rest)).Nodup := by
        rw [htbl]
        have hss : List.Sublist (done ++ c :: applyRemoves (opsOf c v) rest)
            (done ++ c :: rest) := (hsub.cons₂ c).append_left done
        exact hnd.sublist (hss.map Entry.id)
      have hrem2 : ∀ x ∈ applyRemoves (opsOf c v) rest, ∀ op ∈ opsOf x v,
          ∃ j, op = .removeOp j ∧ j ∉ ids (done ++ [c]) := by
        intro x hx op hop
        rcases hrem x (List.mem_cons_of_mem _ (hmemrest x hx)) op hop with ⟨j, hj, hjd⟩
        refine ⟨j, hj, ?_⟩
        have hne : j ≠ c.id := by
          intro he
          exact (hpwc.1 x (hmemrest x hx) op hop) (by rw [hj, he])
        simp only [ids, List.map_append, List.map_cons, List.map_nil, List.mem_append,
          List.mem_singleton]
        rintro (hin | hin)
        · exact hjd hin
        · exact hne hin
      have hrec := runEmit_stepSpec v (applyRemoves (opsOf c v) rest) (done ++ [c]) res
        hnd2 hacts2 hrem2 hpw2
      rw [htbl, show (done ++ [c]).length = done.length + 1 from by simp] at hrec
      have hrec2 := runEmit_mono v _ _ _ _ _ hrec ((c :: rest).length) hfuel
      simp only [hrec2]
      rw [stepSpec]
      simp only [hkeep, Bool.false_eq_true, if_false]
      simp
    | true =>
      have hcnotin : c.id ∉ ids rest := by
        have h2 : (ids (c :: rest)).Nodup := by
          have he : ids (done ++ c :: rest) = ids done ++ ids (c :: rest) := by
            simp [ids]
          rw [he] at hnd
          exact hnd.of_append_right
        have he2 : ids (c :: rest) = c.id :: ids rest := by simp [ids]
        rw [he2] at h2
        exact (List.nodup_cons.1 h2).1
      have hACR : applyRemoves (opsOf c v) (c :: rest)
          = applyRemoves (opsOf c v) rest :=
        applyRemoves_cons_drop _ _ _ hcnotin hkeep
      rw [hACR]
      have hguard : ¬ (((done ++ applyRemoves (opsOf c v) rest)[done.length]?).map
          Entry.id = some c.id) := by
        rw [getElem_append_len]
        cases h2 : (applyRemoves (opsOf c v) rest)[0]? with
        | none => simp
        | some d =>
          simp only [Option.map_some']
          intro he
          have hd : d ∈ applyRemoves (opsOf c v) rest := mem_of_get _ _ _ h2
          have hdm : d.id ∈ ids rest :=
            List.mem_map_of_mem _ (hsub.subset hd)
          rw [Option.some.injEq] at he
          rw [he] at hdm
          exact hcnotin hdm
      rw [if_neg hguard]
      have hnd2 : (ids (done ++ applyRemoves (opsOf c v) rest)).Nodup := by
        have hss : List.Sublist (done ++ applyRemoves (opsOf c v) rest)
            (done ++ c :: rest) :=
          (hsub.trans (List.sublist_cons_self c rest)).append_left done
        exact hnd.sublist (hss.map Entry.id)
      have hrem2 : ∀ x ∈ applyRemoves (opsOf c v) rest, ∀ op ∈ opsOf x v,
          ∃ j, op = .removeOp j ∧ j ∉ ids done :=
        fun x hx op hop => hrem x (List.mem_cons_of_mem _ (hmemrest x hx)) op hop
      have hrec := runEmit_stepSpec v (applyRemoves (opsOf c v) rest) done res
        hnd2 hacts2 hrem2 hpw2
      have hrec2 := runEmit_mono v _ _ _ _ _ hrec ((c :: rest).length) hfuel
      simp only [hrec2]
      rw [stepSpec]
      simp only [hkeep, if_true]
      simp
termination_by pending _ _ => pending.length
decreasing_by
  all_goals
    simp only [List.length_cons]
    exact Nat.lt_succ_of_le (applyRemoves_length_le _ _)

theorem stepSpec_fst_sublist (v : Nat) :
    ∀ l : List Entry, List.Sublist (stepSpec v l).1 (ids l)
  | [] => by simp [stepSpec, ids]
  | c :: rest => by
    rw [stepSpec]
    simp only [ids, List.map_cons]
    exact ((stepSpec_fst_sublist v (applyRemoves (opsOf c v) rest)).trans
      ((applyRemoves_sublist _ _).map Entry.id)).cons₂ c.id
termination_by l => l.length
decreasing_by
  simp only [List.length_cons]
  exact Nat.lt_succ_of_le (applyRemoves_length_le _ _)

theorem stepSpec_fst_complete (v : Nat) :
    ∀ (l : List Entry) (e : Entry), e ∈ l →
      (∀ c ∈ l, TableOp.removeOp e.id ∉ opsOf c v) → e.id ∈ (stepSpec v l).1
  | [] => by
    intro e he _
    simp at he
  | c :: rest => by
    intro e he hno
    rw [stepSpec]
    rcases List.mem_cons.1 he with h1 | h1
    · rw [h1]
      exact List.mem_cons_self _ _
    · have he2 : e ∈ applyRemoves (opsOf c v) rest :=
        mem_applyRemoves e _ rest h1 (hno c (List.mem_cons_self _ _))
      have hrec := stepSpec_fst_complete v (applyRemoves (opsOf c v) rest) e he2
        (fun c2 hc2 => hno c2
          (List.mem_cons_of_mem _ ((applyRemoves_sublist _ _).subset hc2)))
      exact List.mem_cons_of_mem _ hrec
termination_by l => l.length
decreasing_by
  simp only [List.length_cons]
  exact Nat.lt_succ_of_le (applyRemoves_length_le _ _)

/-- C3: on an emit run in which every listener performs only removals
of itself or of later-registered entries (distinct ids standing for
object identity), the loop invokes exactly the entries described by
`stepSpec` — each entry still present when its turn arrives, once, in
table order: the invocation list has no duplicates, is a subsequence
of the registration order, and contains every entry that nobody
removes. -/
theorem emit_iteration_exact_once :
    ∀ (v : Nat) (subs : List Entry),
      (ids subs).Nodup →
      (∀ c ∈ subs, c.beh v = .acts (opsOf c v)) →
      (∀ c ∈ subs, ∀ op ∈ opsOf c v, op.isRemove = true) →
      List.Pairwise (fun a b => ∀ op ∈ opsOf b v, op ≠ .removeOp a.id) subs →
      runEmit v (subs.length + 1) subs none 0
          = some (.returned (stepSpec v subs).1 (stepSpec v subs).2 none) ∧
        (stepSpec v subs).1.Nodup ∧
        List.Sublist (stepSpec v subs).1 (ids subs) ∧
        (∀ e ∈ subs, (∀ c ∈ subs, TableOp.removeOp e.id ∉ opsOf c v) →
          e.id ∈ (stepSpec v subs).1) := by
  intro v subs hnd hacts hrem hpw
  refine ⟨?_, hnd.sublist (stepSpec_fst_sublist v subs), stepSpec_fst_sublist v subs,
    stepSpec_fst_complete v subs⟩
  have hrem2 : ∀ c ∈ subs, ∀ op ∈ opsOf c v, ∃ j, op = .removeOp j ∧ j ∉ ids ([] : List Entry) := by
    intro c hc op hop
    have := hrem c hc op hop
    cases op with
    | removeOp j => exact ⟨j, rfl, by simp [ids]⟩
    | appendOp j => simp [TableOp.isRemove] at this
    | resolveOp x => simp [TableOp.isRemove] at this
  have := runEmit_stepSpec v subs [] none (by simpa using hnd) hacts hrem2 hpw
  simpa using this

/-- Witness for C3: table `[1, 2, 3]` whose first entry removes itself
and whose third removes an absent id; all three are invoked in order
and the final table is `[2, 3]`. -/
theorem emit_iteration_exact_once_witness :
    runEmit 0 (3 + 1)
        [⟨1, fun _ => .acts [.removeOp 1]⟩, inertEntry 2,
         ⟨3, fun _ => .acts [.removeOp 5]⟩] none 0
      = some (.returned
          (stepSpec 0 [⟨1, fun _ => .acts [.removeOp 1]⟩, inertEntry 2,
            ⟨3, fun _ => .acts [.removeOp 5]⟩]).1
          (stepSpec 0 [⟨1, fun _ => .acts [.removeOp 1]⟩, inertEntry 2,
            ⟨3, fun _ => .acts [.removeOp 5]⟩]).2 none) ∧
      (stepSpec 0 [⟨1, fun _ => .acts [.removeOp 1]⟩, inertEntry 2,
        ⟨3, fun _ => .acts [.removeOp 5]⟩]).1.Nodup ∧
      List.Sublist
        (stepSpec 0 [⟨1, fun _ => .acts [.removeOp 1]⟩, inertEntry 2,
          ⟨3, fun _ => .acts [.removeOp 5]⟩]).1
        (ids [⟨1, fun _ => .acts [.removeOp 1]⟩, inertEntry 2,
          ⟨3, fun _ => .acts [.removeOp 5]⟩]) ∧
      (∀ e ∈ [⟨1, fun _ => .acts [.removeOp 1]⟩, inertEntry 2,
          (⟨3, fun _ => .acts [.removeOp 5]⟩ : Entry)],
        (∀ c ∈ [⟨1, fun _ => .acts [.removeOp 1]⟩, inertEntry 2,
            (⟨3, fun _ => .acts [.removeOp 5]⟩ : Entry)],
          TableOp.removeOp e.id ∉ opsOf c 0) →
        e.id ∈ (stepSpec 0 [⟨1, fun _ => .acts [.removeOp 1]⟩, inertEntry 2,
          ⟨3, fun _ => .acts [.removeOp 5]⟩]).1) :=
  emit_iteration_exact_once 0
    [⟨1, fun _ => .acts [.removeOp 1]⟩, inertEntry 2, ⟨3, fun _ => .acts [.removeOp 5]⟩]
    (by decide) (by decide) (by decide) (by decide)


/-! ## Inert segments of the table -/

theorem runEmit_inert_prefix (v : Nat) :
    ∀ (mid done rest : List Entry) (res : Option Nat) (f : Nat),
      (∀ x ∈ mid, x.beh v = .acts []) →
      runEmit v (mid.length + f) (done ++ mid ++ rest) res done.length
        = (runEmit v f (done ++ mid ++ rest) res (done ++ mid).length).map
            (fun r => match r with
              | .thrown m => .thrown m
              | .returned inv tbl2 res2 => .returned (ids mid ++ inv) tbl2 res2) := by
  intro mid
  induction mid with
  | nil =>
    intro done rest res f _
    simp only [List.length_nil, Nat.zero_add, List.append_nil]
    cases h : runEmit v f (done ++ rest) res done.length with
    | none => rfl
    | some r =>
      cases r with
      | thrown m => rfl
      | returned inv tbl2 res2 => simp [ids]
  | cons m mid ih =>
    intro done rest res f hin
    have hm : m.beh v = .acts [] := hin m (List.mem_cons_self _ _)
    have htbl : done ++ (m :: mid) ++ rest = done ++ m :: (mid ++ rest) := by simp
    have hget : (done ++ m :: (mid ++ rest))[done.length]? = some m := by
      rw [getElem_append_len]
      simp
    have hstep : runEmit v ((m :: mid).length + f) (done ++ (m :: mid) ++ rest) res done.length
        = match runEmit v (mid.length + f) (done ++ (m :: mid) ++ rest) res (done.length + 1) with
          | some (.returned inv tbl2 res2) => some (.returned (m.id :: inv) tbl2 res2)
          | other => other := by
      rw [htbl]
      rw [show (m :: mid).length + f = (mid.length + f) + 1 from by simp [Nat.add_comm, Nat.add_assoc, Nat.add_left_comm]]
      rw [runEmit_succ]
      simp only [hget, hm]
      have happ : applyOps [] (done ++ m :: (mid ++ rest), res) = (done ++ m :: (mid ++ rest), res) := rfl
      simp only [happ, hget, Option.map_some', if_true]
    rw [hstep]
    have hre : done ++ (m :: mid) ++ rest = (done ++ [m]) ++ mid ++ rest := by simp
    have hk : done.length + 1 = (done ++ [m]).length := by simp
    rw [hre, hk]
    rw [ih (done ++ [m]) rest res f (fun x hx => hin x (List.mem_cons_of_mem _ hx))]
    have hk2 : ((done ++ [m]) ++ mid).length = (done ++ m :: mid).length := by simp
    rw [hk2]
    cases h : runEmit v f ((done ++ [m]) ++ mid ++ rest) res (done ++ m :: mid).length with
    | none => simp
    | some r =>
      cases r with
      | thrown m2 => simp
      | returned inv tbl2 res2 => simp [ids]

theorem runEmit_inert_all (v : Nat) (mid done : List Entry) (res : Option Nat)
    (h : ∀ x ∈ mid, x.beh v = .acts []) :
    runEmit v (mid.length + 1) (done ++ mid) res done.length
      = some (.returned (ids mid) (done ++ mid) res) := by
  have hpfx := runEmit_inert_prefix v mid done [] res 1 h
  rw [List.append_nil] at hpfx
  rw [hpfx, runEmit_succ]
  have hg : (done ++ mid)[(done ++ mid).length]? = none :=
    List.getElem?_eq_none (le_refl _)
  simp only [hg]
  simp [ids]

theorem emitAll_inert :
    ∀ (vs : List Nat) (tbl : List Entry) (res : Option Nat),
      (∀ x ∈ tbl, ∀ w, x.beh w = .acts []) →
      emitAll vs tbl res = some (tbl, res) := by
  intro vs
  induction vs with
  | nil => intro tbl res _; rfl
  | cons v vs ih =>
    intro tbl res h
    have := runEmit_inert_all v tbl [] res (fun x hx => h x hx v)
    simp only [List.nil_append, List.length_nil] at this
    simp only [emitAll, this]
    exact ih tbl res h

/-! ## Synchronous listener throws (C2) -/

/-- C2 counterexample: a single subscriber whose listener throws
synchronously.  `emit` raises the exception synchronously to its
caller (the loop evaluates `current.emit(t)` with no try/catch and
`Promise.resolve(listener(item))` evaluates `listener(item)` before
any promise exists), so no pending operation is returned — the claim
that `emit` never raises the listener's error synchronously is false
as stated. -/
theorem sync_throw_cex :
    runEmit 7 1 [⟨0, fun _ => .throws "boom"⟩] none 0 = some (.thrown "boom") ∧
      returnsPending (runEmit 7 1 [⟨0, fun _ => .throws "boom"⟩] none 0) = false :=
  ⟨rfl, rfl⟩

/-- C2 (amended): a listener's synchronous throw propagates
synchronously out of `emit` itself: with any inert entries before it,
`emit` raises the thrown error to its caller instead of returning the
`waitAll` pending operation (later entries are never reached).  Only a
listener's *asynchronous* failure propagates through the returned
pending operation. -/
theorem sync_throw_escapes :
    ∀ (v : Nat) (pre : List Entry) (e : Entry) (rest : List Entry)
      (res : Option Nat) (msg : String),
      (∀ x ∈ pre, x.beh v = .acts []) →
      e.beh v = .throws msg →
      runEmit v (pre.length + 1) (pre ++ e :: rest) res 0 = some (.thrown msg) := by
  intro v pre e rest res msg hin hthrow
  have := runEmit_inert_prefix v pre [] (e :: rest) res 1 hin
  simp only [List.nil_append, List.length_nil] at this
  rw [this, runEmit_succ]
  have hget : (pre ++ e :: rest)[pre.length]? = some e := by
    rw [getElem_append_len]
    simp
  simp only [hget, hthrow]
  rfl

/-- Witness for C2 as amended: an inert entry followed by a throwing
one; `emit` raises synchronously. -/
theorem sync_throw_escapes_witness :
    runEmit 0 (1 + 1) [inertEntry 4, ⟨1, fun _ => .throws "bad"⟩] none 0
      = some (.thrown "bad") :=
  sync_throw_escapes 0 [inertEntry 4] ⟨1, fun _ => .throws "bad"⟩ [] none "bad"
    (by decide) (by decide)

/-! ## Subscribing during emission (C10) -/

/-- C10: a listener that synchronously appends a fresh entry to the
same table mid-emission does not escape the in-progress iteration: the
loop re-reads `subscriptions.length` each step, so the appended entry
is reached and invoked with the same emitted value, after the
originally registered entries. -/
theorem subscribe_during_emit :
    ∀ (v j : Nat) (pre : List Entry) (a : Entry) (post : List Entry) (res : Option Nat),
      (∀ x ∈ pre, x.beh v = .acts []) →
      (∀ x ∈ post, x.beh v = .acts []) →
      a.beh v = .acts [.appendOp j] →
      runEmit v ((pre ++ a :: post).length + 2) (pre ++ a :: post) res 0
        = some (.returned (ids pre ++ a.id :: (ids post ++ [j]))
            ((pre ++ a :: post) ++ [inertEntry j]) res) := by
  intro v j pre a post res hpre hpost ha
  have hlen : (pre ++ a :: post).length + 2 = pre.length + (post.length + 3) := by
    simp [List.length_append]
    omega
  rw [hlen]
  have hpfx := runEmit_inert_prefix v pre [] (a :: post) res (post.length + 3) hpre
  simp only [List.nil_append, List.length_nil] at hpfx
  rw [hpfx]
  have hget : (pre ++ a :: post)[pre.length]? = some a := by
    rw [getElem_append_len]
    simp
  rw [show post.length + 3 = (post.length + 2) + 1 from rfl, runEmit_succ]
  simp only [hget, ha]
  have happ : applyOps [TableOp.appendOp j] (pre ++ a :: post, res)
      = ((pre ++ a :: post) ++ [inertEntry j], res) := rfl
  simp only [happ]
  have hget2 : ((pre ++ a :: post) ++ [inertEntry j])[pre.length]? = some a := by
    rw [show (pre ++ a :: post) ++ [inertEntry j] = pre ++ (a :: (post ++ [inertEntry j])) from by simp]
    rw [getElem_append_len]
    simp
  simp only [hget2, Option.map_some', if_true]
  have hinert : ∀ x ∈ post ++ [inertEntry j], x.beh v = .acts [] := by
    intro x hx
    rcases List.mem_append.1 hx with h1 | h1
    · exact hpost x h1
    · rw [List.mem_singleton.1 h1]
      rfl
  have hall := runEmit_inert_all v (post ++ [inertEntry j]) (pre ++ [a]) res hinert
  have hshape : (pre ++ [a]) ++ (post ++ [inertEntry j])
      = (pre ++ a :: post) ++ [inertEntry j] := by simp
  have hklen : (pre ++ [a]).length = pre.length + 1 := by simp
  have hflen : (post ++ [inertEntry j]).length + 1 = post.length + 2 := by simp
  rw [hshape, hklen, hflen] at hall
  rw [hall]
  have hids : ids (post ++ [inertEntry j]) = ids post ++ [j] := by
    simp [ids, inertEntry]
  simp [hids]

/-- Witness for C10: table `[5, 1, 2]` where entry `1` appends a fresh
entry `9`; invocation order is `[5, 1, 2, 9]` and the final table has
the new entry at the end. -/
theorem subscribe_during_emit_witness :
    runEmit 0 (([inertEntry 5] ++ (⟨1, fun _ => EntryAct.acts [.appendOp 9]⟩ : Entry) :: [inertEntry 2]).length + 2)
        ([inertEntry 5] ++ (⟨1, fun _ => EntryAct.acts [.appendOp 9]⟩ : Entry) :: [inertEntry 2]) none 0
      = some (.returned
          (ids [inertEntry 5] ++ 1 :: (ids [inertEntry 2] ++ [9]))
          (([inertEntry 5] ++ (⟨1, fun _ => EntryAct.acts [.appendOp 9]⟩ : Entry) :: [inertEntry 2]) ++ [inertEntry 9]) none) :=
  subscribe_during_emit 0 9 [inertEntry 5] ⟨1, fun _ => EntryAct.acts [.appendOp 9]⟩
    [inertEntry 2] none (by decide) (by decide) (by decide)


/-! ## Removal is a no-op on absent targets (C8) -/

theorem not_mem_ids_removeFirst :
    ∀ (l : List Entry), (ids l).Nodup → ∀ i, i ∉ ids (removeFirst i l) := by
  intro l
  induction l with
  | nil => intro _ i; simp [removeFirst, ids]
  | cons e es ih =>
    intro hnd i
    have hids : ids (e :: es) = e.id :: ids es := by simp [ids]
    rw [hids] at hnd
    have h1 : e.id ∉ ids es := (List.nodup_cons.1 hnd).1
    have h2 : (ids es).Nodup := (List.nodup_cons.1 hnd).2
    simp only [removeFirst]
    by_cases he : e.id = i
    · rw [if_pos he, ← he]
      exact h1
    · rw [if_neg he]
      have hids2 : ids (e :: removeFirst i es) = e.id :: ids (removeFirst i es) := by
        simp [ids]
      rw [hids2]
      intro hm
      rcases List.mem_cons.1 hm with hh | hh
      · exact he hh.symm
      · exact ih h2 i hh

/-- C8: `remove` scans for the first entry with the given target and
splices it out; a target not present in the table (in particular, the
second of two `unlink()` calls on the same LinkedObservable, ids
standing for object identity) is a no-op — no error is raised and the
table is unchanged — so removing twice equals removing once. -/
theorem remove_idempotent :
    (∀ (i : Nat) (l : List Entry), i ∉ ids l → removeFirst i l = l) ∧
    (∀ (i : Nat) (l : List Entry), (ids l).Nodup →
      removeFirst i (removeFirst i l) = removeFirst i l) := by
  constructor
  · exact removeFirst_not_mem
  · intro i l hnd
    exact removeFirst_not_mem i (removeFirst i l) (not_mem_ids_removeFirst l hnd i)

/-- Witness for C8: removing the absent id 9 leaves the table alone;
removing id 4 twice equals removing it once. -/
theorem remove_idempotent_witness :
    removeFirst 9 [inertEntry 1] = [inertEntry 1] ∧
      removeFirst 4 (removeFirst 4 [inertEntry 4, inertEntry 7])
        = removeFirst 4 [inertEntry 4, inertEntry 7] :=
  ⟨remove_idempotent.1 9 [inertEntry 1] (by decide),
   remove_idempotent.2 4 [inertEntry 4, inertEntry 7] (by decide)⟩

/-! ## The `next` temporary subscription (C7) -/

theorem nextEntry_beh (i : Nat) (pred : Option (Nat → Bool)) (v : Nat) :
    (nextEntry i pred).beh v
      = .acts (if predHolds pred v then [.removeOp i, .resolveOp v] else []) := rfl

/-- One emission of a value the predicate accepts: every entry is
still invoked (the temporary subscription keeps participating in the
walk it removes itself from), the `next` entry is spliced out, and the
pending `next` promise is resolved with the value. -/
theorem runEmit_next_match (v : Nat) (pred : Option (Nat → Bool)) (i : Nat)
    (pre post : List Entry)
    (hpre : ∀ x ∈ pre, x.beh v = .acts [])
    (hpost : ∀ x ∈ post, x.beh v = .acts [])
    (hipre : i ∉ ids pre) (hipost : i ∉ ids post)
    (hp : predHolds pred v = true) :
    runEmit v ((pre ++ nextEntry i pred :: post).length + 1)
        (pre ++ nextEntry i pred :: post) none 0
      = some (.returned (ids pre ++ i :: ids post) (pre ++ post) (some v)) := by
  have hlen : (pre ++ nextEntry i pred :: post).length + 1
      = pre.length + (post.length + 2) := by
    simp [List.length_append]
    omega
  rw [hlen]
  have hpfx := runEmit_inert_prefix v pre [] (nextEntry i pred :: post) none
    (post.length + 2) hpre
  simp only [List.nil_append, List.length_nil] at hpfx
  rw [hpfx]
  rw [show post.length + 2 = (post.length + 1) + 1 from rfl, runEmit_succ]
  have hget : (pre ++ nextEntry i pred :: post)[pre.length]? = some (nextEntry i pred) := by
    rw [getElem_append_len]
    simp
  simp only [hget, nextEntry_beh, hp, if_true]
  have happly : applyOps [TableOp.removeOp i, TableOp.resolveOp v]
      (pre ++ nextEntry i pred :: post, none) = (pre ++ post, some v) := by
    simp only [applyOps, List.foldl_cons, List.foldl_nil, applyOp]
    rw [removeFirst_append i pre _ hipre]
    simp [removeFirst, nextEntry]
  simp only [happly]
  have hguard : ¬ (((pre ++ post)[pre.length]?).map Entry.id
      = some (nextEntry i pred).id) := by
    rw [getElem_append_len]
    cases h2 : post[0]? with
    | none => simp
    | some d =>
      simp only [Option.map_some', nextEntry]
      intro he
      rw [Option.some.injEq] at he
      have hd : d ∈ post := mem_of_get _ _ _ h2
      have : d.id ∈ ids post := List.mem_map_of_mem _ hd
      rw [he] at this
      exact hipost this
  rw [if_neg hguard]
  have hall := runEmit_inert_all v post pre (some v) hpost
  rw [hall]
  simp [nextEntry]

/-- C7: `next(predicate)` (a null or omitted predicate counting as
always true) resolves with the first value emitted after registration
that satisfies the predicate; values that do not satisfy it produce no
resolution (the promise executor exposes no rejection, so the returned
promise never rejects on its own); upon the first match the temporary
subscription removes itself, so the table returns to its pre-`next`
shape, and with no match the table and the unresolved promise are left
as they were. -/
theorem next_contract :
    ∀ (vs : List Nat) (pred : Option (Nat → Bool)) (i : Nat) (pre post : List Entry),
      (∀ x ∈ pre, ∀ w, x.beh w = .acts []) →
      (∀ x ∈ post, ∀ w, x.beh w = .acts []) →
      i ∉ ids pre → i ∉ ids post →
      emitAll vs (pre ++ nextEntry i pred :: post) none
        = some
            ((if vs.any (predHolds pred) then pre ++ post
              else pre ++ nextEntry i pred :: post),
             vs.find? (predHolds pred)) := by
  intro vs
  induction vs with
  | nil =>
    intro pred i pre post _ _ _ _
    simp [emitAll]
  | cons v vs ih =>
    intro pred i pre post hpre hpost hipre hipost
    by_cases hp : predHolds pred v = true
    · have hrun := runEmit_next_match v pred i pre post
        (fun x hx => hpre x hx v) (fun x hx => hpost x hx v) hipre hipost hp
      simp only [emitAll, hrun]
      have hrest : emitAll vs (pre ++ post) (some v) = some (pre ++ post, some v) := by
        apply emitAll_inert
        intro x hx w
        rcases List.mem_append.1 hx with h1 | h1
        · exact hpre x h1 w
        · exact hpost x h1 w
      rw [hrest]
      simp [List.any_cons, hp, List.find?_cons, hp]
    · have hp2 : predHolds pred v = false := by
        cases h : predHolds pred v
        · rfl
        · exact absurd h hp
      have hall : ∀ x ∈ pre ++ nextEntry i pred :: post, x.beh v = .acts [] := by
        intro x hx
        rcases List.mem_append.1 hx with h1 | h1
        · exact hpre x h1 v
        · rcases List.mem_cons.1 h1 with h2 | h2
          · rw [h2, nextEntry_beh, hp2]
            simp
          · exact hpost x h2 v
      have hrun := runEmit_inert_all v (pre ++ nextEntry i pred :: post) [] none hall
      simp only [List.nil_append, List.length_nil] at hrun
      simp only [emitAll, hrun]
      rw [ih pred i pre post hpre hpost hipre hipost]
      simp [List.any_cons, hp2, List.find?_cons]

/-- Witness for C7: table `[0, next(even), 7]`, emissions
`[1, 3, 2, 4]`: the promise resolves with `2` (the first even value),
and the table returns to `[0, 7]`. -/
theorem next_contract_witness :
    emitAll [1, 3, 2, 4]
        ([inertEntry 0] ++ nextEntry 5 (some fun w => w % 2 = 0) :: [inertEntry 7]) none
      = some
          ((if ([1, 3, 2, 4].any (predHolds (some fun w => w % 2 = 0)))
            then [inertEntry 0] ++ [inertEntry 7]
            else [inertEntry 0] ++ nextEntry 5 (some fun w => w % 2 = 0) :: [inertEntry 7]),
           [1, 3, 2, 4].find? (predHolds (some fun w => w % 2 = 0))) :=
  next_contract [1, 3, 2, 4] (some fun w => w % 2 = 0) 5 [inertEntry 0] [inertEntry 7]
    (by intro x hx w; rw [List.mem_singleton.1 hx]; rfl)
    (by intro x hx w; rw [List.mem_singleton.1 hx]; rfl)
    (by decide) (by decide)


end PromiseObserver
